import Mathlib

/-!
# Technician Hours Tracker — verification of the core pipeline

A shallow embedding of the core logic of `Hours_Process_app.py`:

* `time_to_hours` — the duration normalizer (source lines 30–52), with the
  three external text parsers (`pd.to_timedelta`, `pd.to_datetime`,
  Python `float`) abstracted as a `TextConv` record of `Option`-returning
  functions, since their code is a library external to this repository;
* `get_bar_color` — the color-band mapper (lines 54–63);
* `missing_cols` / `ingest` / `ingestAll` — per-dataset validation and
  cleaning (lines 98–110);
* `groupRows` — the group-by aggregation (lines 116–119), a left fold that
  updates one association entry per canonical technician;
* `mergeSummary` — the roster left-merge, fill, rounding and optional
  descending sort (lines 122–128).

Numbers are modelled as `ℚ` (the Python code works in binary floats; the
claims under study are about the algebra of the pipeline, not float
rounding error). Missing cells (`NaN`) are `Option.none`.
-/

/-- A raw duration cell as the normalizer's dynamic type dispatch sees it:
null/NaN, a `pd.Timedelta` (total seconds), a `pd.Timestamp` or
`datetime.datetime` (time-of-day fields), a `datetime.time`, a Python or
numpy number, or text. -/
inductive RawValue where
  | null : RawValue
  | timedelta (seconds : ℚ) : RawValue
  | timestamp (hour minute second : ℕ) : RawValue
  | clocktime (hour minute second : ℕ) : RawValue
  | num (v : ℚ) : RawValue
  | text (s : String) : RawValue
deriving DecidableEq

/-- Whether `pd.isnull` holds of the cell. -/
def RawValue.isNull : RawValue → Bool
  | .null => true
  | _ => false

/-- The three external text-conversion routines the normalizer calls on a
string cell, in order: `pd.to_timedelta` (total seconds on success),
`pd.to_datetime` (hour/minute/second fields on success), and Python's
`float`. Each returns `none` where the library call would raise. -/
structure TextConv where
  toTimedelta : String → Option ℚ
  toDatetime : String → Option (ℕ × ℕ × ℕ)
  toFloat : String → Option ℚ

/-- `time_to_hours` (source lines 30–52): converts a raw cell to decimal
hours by runtime type dispatch, with a try/except cascade on text and a
final `0.0` fallback. -/
def time_to_hours (P : TextConv) : RawValue → ℚ
  | .null => 0
  | .timedelta seconds => seconds / 3600
  | .timestamp h m s => (h : ℚ) + (m : ℚ) / 60 + (s : ℚ) / 3600
  | .clocktime h m s => (h : ℚ) + (m : ℚ) / 60 + (s : ℚ) / 3600
  | .num v => if 0 ≤ v ∧ v ≤ 1 then v * 24 else v
  | .text s =>
    match P.toTimedelta s with
    | some seconds => seconds / 3600
    | none =>
      match P.toDatetime s with
      | some (h, m, sec) => (h : ℚ) + (m : ℚ) / 60 + (sec : ℚ) / 3600
      | none =>
        match P.toFloat s with
        | some v => v
        | none => 0

/-- Split a character list at every occurrence of a separator (the list
analogue of splitting a string on one character). -/
def splitOnChar (c : Char) : List Char → List (List Char)
  | [] => [[]]
  | x :: xs =>
    match splitOnChar c xs with
    | [] => [[x]]
    | g :: gs => if x = c then [] :: g :: gs else (x :: g) :: gs

/-- Read a non-empty all-digit character list as a natural number. -/
def charsToNat? (l : List Char) : Option ℕ :=
  if !l.isEmpty && l.all Char.isDigit
  then some (l.foldl (fun n c => n * 10 + (c.toNat - 48)) 0)
  else none

/-- Strip leading and trailing whitespace from a character list. -/
def trimChars (l : List Char) : List Char :=
  ((l.dropWhile Char.isWhitespace).reverse.dropWhile Char.isWhitespace).reverse

/-- Minimal executable model of `pd.to_timedelta` on strings: accepts
`"H:MM:SS"` and returns total seconds; everything else raises. -/
def modelToTimedelta (s : String) : Option ℚ :=
  match splitOnChar ':' s.data with
  | [h, m, sec] =>
    match charsToNat? h, charsToNat? m, charsToNat? sec with
    | some h, some m, some sec => some ((h * 3600 + m * 60 + sec : ℕ) : ℚ)
    | _, _, _ => none
  | _ => none

/-- Minimal executable model of `pd.to_datetime` on strings: accepts
`"YYYY-MM-DD HH:MM:SS"` and returns the time-of-day fields; everything
else raises. -/
def modelToDatetime (s : String) : Option (ℕ × ℕ × ℕ) :=
  match splitOnChar ' ' s.data with
  | [d, t] =>
    match splitOnChar '-' d, splitOnChar ':' t with
    | [y, mo, da], [h, mi, sec] =>
      match charsToNat? y, charsToNat? mo, charsToNat? da,
            charsToNat? h, charsToNat? mi, charsToNat? sec with
      | some _, some _, some _, some h, some mi, some sec => some (h, mi, sec)
      | _, _, _, _, _, _ => none
    | _, _ => none
  | _ => none

/-- Minimal executable model of Python's `float` on strings: an optional
minus sign, digits, and an optional fractional part; everything else
raises. -/
def modelToFloat (s : String) : Option ℚ :=
  let l := trimChars s.data
  let signDigits : Bool × List Char :=
    match l with
    | '-' :: rest => (true, rest)
    | _ => (false, l)
  let signed : ℚ → ℚ := fun q => if signDigits.1 then -q else q
  match splitOnChar '.' signDigits.2 with
  | [a] => (charsToNat? a).map fun n => signed (n : ℚ)
  | [a, b] =>
    match charsToNat? a, charsToNat? b with
    | some x, some y => some (signed ((x : ℚ) + (y : ℚ) / ((10 : ℚ) ^ b.length)))
    | _, _ => none
  | _ => none

/-- The modelled external conversions bundled. -/
def modelConv : TextConv :=
  { toTimedelta := modelToTimedelta
    toDatetime := modelToDatetime
    toFloat := modelToFloat }

/-- Round-half-to-even to an integer, as numpy rounding does. -/
def roundHalfEven (q : ℚ) : ℤ :=
  if q - (⌊q⌋ : ℚ) < 1 / 2 then ⌊q⌋
  else if 1 / 2 < q - (⌊q⌋ : ℚ) then ⌊q⌋ + 1
  else if Even ⌊q⌋ then ⌊q⌋ else ⌊q⌋ + 1

/-- `Series.round(2)` on one value: round half-to-even at two decimals. -/
def round2 (q : ℚ) : ℚ := (roundHalfEven (q * 100) : ℚ) / 100

/-- One cleaned row, after `dropna`, canonicalization and normalization:
canonical technician, possibly-null work order, decimal hours. -/
structure Row where
  technician : String
  workOrder : Option String
  hours : ℚ
deriving DecidableEq

/-- One raw row of an uploaded dataset; `none` fields model `NaN` cells. -/
structure RawRow where
  technician : Option String
  workOrder : Option String
  duration : RawValue
deriving DecidableEq

/-- An uploaded dataset: its column names and its rows. -/
structure Dataset where
  name : String
  cols : List String
  rows : List RawRow
deriving DecidableEq

def TECHNICIAN_COL : String := "Technician"
def WORK_ORDER_COL : String := "Work order for labor reporting"
def HOURS_COL : String := "Labor reporting time (duration)"

/-- The three required columns, in the order line 98 checks them. -/
def requiredCols : List String := [TECHNICIAN_COL, WORK_ORDER_COL, HOURS_COL]

/-- `missing_cols` (line 98): the required columns absent from the dataset. -/
def missing_cols (d : Dataset) : List String :=
  requiredCols.filter fun c => !(d.cols.contains c)

/-- Canonical technician identifier (line 105): strip then upper-case. -/
def canonTech (s : String) : String := ⟨(trimChars s.data).map Char.toUpper⟩

/-- Cleaning (lines 104–106): drop rows whose technician or duration cell is
null, canonicalize the technician, normalize the duration. -/
def cleanRows (P : TextConv) (rows : List RawRow) : List Row :=
  (rows.filter fun r => r.technician.isSome && !r.duration.isNull).map fun r =>
    { technician := canonTech (r.technician.getD "")
      workOrder := r.workOrder
      hours := time_to_hours P r.duration }

/-- `ingest` of one dataset (lines 98–107): reject it naming the missing
columns, or return its cleaned rows. -/
def ingest (P : TextConv) (d : Dataset) : Except (List String) (List Row) :=
  if missing_cols d ≠ [] then .error (missing_cols d)
  else .ok (cleanRows P d.rows)

/-- The upload loop (lines 87–110 and 114): each dataset is ingested in
turn; a rejected dataset contributes a warning `(name, missing columns)`
and no rows, and the loop continues; accepted rows are concatenated in
order, as `pd.concat` then does. -/
def ingestAll (P : TextConv) : List Dataset → List Row × List (String × List String)
  | [] => ([], [])
  | d :: rest =>
    match ingest P d with
    | .ok rs => (rs ++ (ingestAll P rest).1, (ingestAll P rest).2)
    | .error m => ((ingestAll P rest).1, (d.name, m) :: (ingestAll P rest).2)

/-- Add a work-order id to a group's set of seen non-null ids. -/
def woInsert (ws : List String) : Option String → List String
  | none => ws
  | some w => if w ∈ ws then ws else ws ++ [w]

/-- One step of the group-by: fold a row into the association list keyed by
canonical technician, accumulating the set of distinct non-null work
orders and the running hours sum. -/
def aggStep (acc : List (String × List String × ℚ)) (r : Row) :
    List (String × List String × ℚ) :=
  match acc with
  | [] => [(r.technician, woInsert [] r.workOrder, r.hours)]
  | (t, ws, h) :: rest =>
    if t = r.technician then (t, woInsert ws r.workOrder, h + r.hours) :: rest
    else (t, ws, h) :: aggStep rest r

/-- The raw group-by state after folding all rows. -/
def groupRaw (rows : List Row) : List (String × List String × ℚ) :=
  rows.foldl aggStep []

/-- `grouped` (lines 116–119): per technician, `nunique` of the work-order
column (null ids ignored) and `sum` of the hours column. -/
def groupRows (rows : List Row) : List (String × ℕ × ℚ) :=
  (groupRaw rows).map fun p => (p.1, p.2.1.length, p.2.2)

/-- Lookup of a technician in the grouped table (the join key of the merge). -/
def lookupAgg (g : List (String × ℕ × ℚ)) (t : String) : Option (ℕ × ℚ) :=
  (g.find? fun p => p.1 == t).map fun p => p.2

/-- One row of the final summary table. -/
structure TechnicianSummary where
  technician : String
  work_orders_completed : ℕ
  total_hours : ℚ
deriving DecidableEq

/-- Stable descending insertion by `total_hours`: an element goes before
the first entry whose hours do not exceed its own. -/
def insertDesc (e : TechnicianSummary) :
    List TechnicianSummary → List TechnicianSummary
  | [] => [e]
  | x :: xs =>
    if x.total_hours ≤ e.total_hours then e :: x :: xs else x :: insertDesc e xs

/-- `sort_values(by="Total_Hours_Worked", ascending=False)` (line 128),
modelled as the stable descending sort the specification prescribes. -/
def sortByHoursDesc (l : List TechnicianSummary) : List TechnicianSummary :=
  l.foldr insertDesc []

/-- The left-merge rows before rounding (lines 122–124): one entry per
roster technician, `(0, 0)` when the technician has no aggregated data. -/
def baseSummary (roster : List String) (grouped : List (String × ℕ × ℚ)) :
    List TechnicianSummary :=
  roster.map fun t =>
    match lookupAgg grouped t with
    | some (w, h) => { technician := t, work_orders_completed := w, total_hours := h }
    | none => { technician := t, work_orders_completed := 0, total_hours := 0 }

/-- `summary` (lines 122–128): left-merge onto the roster, fill absentees
with `(0, 0.0)`, round the hours column to two decimals, and sort by hours
descending when the checkbox is set. -/
def mergeSummary (roster : List String) (grouped : List (String × ℕ × ℚ))
    (sortDesc : Bool) : List TechnicianSummary :=
  let s := (baseSummary roster grouped).map fun e =>
    { e with total_hours := round2 e.total_hours }
  if sortDesc then sortByHoursDesc s else s

/-- `MANUAL_TECHS` as written in the source (lines 15–20), before sorting. -/
def MANUAL_TECHS_raw : List String :=
  ["SRIJAN", "EPELI_23", "AMITESHWAR_22", "KAUSHIK_23", "RATHNAYAKA",
   "NITUN_22", "ROMAN_01", "NIKLESH_25", "SUMIT_22", "NAND_22",
   "VILIAME", "ANISH", "PAUL_22", "SAILESH_22", "KAPIL_25",
   "NITENDRA_25", "GOSAI_25", "JOE_22", "RAHUL_24", "ROHIT"]

/-- Lexicographic comparison of code-point lists, as Python compares
strings. -/
def lexLe : List ℕ → List ℕ → Bool
  | [], _ => true
  | _ :: _, [] => false
  | a :: as, b :: bs => if a < b then true else if b < a then false else lexLe as bs

/-- The sort key of line 21: the code points of the upper-cased string. -/
def upperKey (s : String) : List ℕ := s.data.map fun c => c.toUpper.toNat

/-- Stable ascending insertion of a string keyed by its upper-casing. -/
def insertByUpper (s : String) : List String → List String
  | [] => [s]
  | x :: xs =>
    if lexLe (upperKey s) (upperKey x) then s :: x :: xs else x :: insertByUpper s xs

/-- `sorted(key=str.upper)` (line 21): a stable sort keyed case-insensitively. -/
def sortByUpper (l : List String) : List String := l.foldr insertByUpper []

/-- The roster: `MANUAL_TECHS` after line 21's case-insensitive sort. -/
def MANUAL_TECHS : List String := sortByUpper MANUAL_TECHS_raw

/-- A bar color: the fixed red hex string, or an RGB triple from the
colormap (components in `[0, 1]`). -/
inductive BarColor where
  | hex (s : String) : BarColor
  | rgb (r g b : ℚ) : BarColor
deriving DecidableEq

/-- The matplotlib `orange → yellow → green` colormap of line 62, as the
explicit three-stop piecewise-linear RGB interpolation (stops at 0, 1/2
and 1 with `orange = (1, 165/255, 0)`, `yellow = (1, 1, 0)`,
`green = (0, 128/255, 0)`); out-of-range positions clip to the ends, as a
colormap call does. -/
def gradientAt (p : ℚ) : ℚ × ℚ × ℚ :=
  let q := max 0 (min 1 p)
  if q ≤ 1 / 2 then (1, 165 / 255 + (1 - 165 / 255) * (2 * q), 0)
  else (1 - (2 * q - 1), 1 + (128 / 255 - 1) * (2 * q - 1), 0)

/-- `get_bar_color` (lines 54–63): red below 20 hours, otherwise the
gradient at `(hours - 20) / (max(max_hours, 20) - 20)` (0 when the
denominator is not positive). -/
def get_bar_color (hours max_hours : ℚ) : BarColor :=
  let max_for_norm := max max_hours 20
  if hours < 20 then .hex "#FF0000"
  else
    let norm_val :=
      if max_for_norm - 20 > 0 then (hours - 20) / (max_for_norm - 20) else 0
    let c := gradientAt norm_val
    .rgb c.1 c.2.1 c.2.2

/-- The value a raw cell carries is non-negative: durations and numerics
are `≥ 0`, and any duration or bare-number reading of a text cell is
`≥ 0` (time-of-day fields are naturals, so timestamps and clock times
always qualify). -/
def RawValue.NonnegFor (P : TextConv) : RawValue → Prop
  | .timedelta seconds => 0 ≤ seconds
  | .num v => 0 ≤ v
  | .text s => (∀ q, P.toTimedelta s = some q → 0 ≤ q) ∧
      (∀ q, P.toFloat s = some q → 0 ≤ q)
  | _ => True

/-- Claim C4: a numeric value `v` normalizes to `v * 24` when
`0 ≤ v ≤ 1` (day-fraction) and to `v` unchanged otherwise; in particular
`normalize(0.5) = 12` and `normalize(5.0) = 5`. -/
theorem c4_numeric_day_fraction (P : TextConv) (v : ℚ) :
    time_to_hours P (.num v) = (if 0 ≤ v ∧ v ≤ 1 then v * 24 else v) ∧
    time_to_hours P (.num (1 / 2)) = 12 ∧
    time_to_hours P (.num 5) = 5 := by
  refine ⟨rfl, ?_, ?_⟩ <;> norm_num [time_to_hours]

/-- Counterexample to claim C1: the negative numeric input `-5` does not
degrade to `0.0`; `time_to_hours` returns it unchanged, a negative
result. -/
theorem c1_counterexample_negative_numeric :
    time_to_hours modelConv (.num (-5)) = -5 ∧
    ¬ (0 ≤ time_to_hours modelConv (.num (-5))) := by
  norm_num [time_to_hours]

/-- Claim C1 as amended: `time_to_hours` is total (every branch returns a
value), unparseable text degrades to `0.0` via the final fallback, and the
result is non-negative whenever the input's underlying value is — but a
negative numeric (or negative-duration) input is passed through unchanged,
so the unconditional lower bound of the original claim fails. -/
theorem c1_normalize_nonneg_amended (P : TextConv) (v : RawValue) (s : String)
    (hv : v.NonnegFor P) (h1 : P.toTimedelta s = none)
    (h2 : P.toDatetime s = none) (h3 : P.toFloat s = none) :
    0 ≤ time_to_hours P v ∧ time_to_hours P (.text s) = 0 := by
  constructor
  · cases v with
    | null => simp [time_to_hours]
    | timedelta seconds =>
      simp only [time_to_hours]
      exact div_nonneg hv (by norm_num)
    | timestamp h m s => simp only [time_to_hours]; positivity
    | clocktime h m s => simp only [time_to_hours]; positivity
    | num q =>
      simp only [time_to_hours]
      rcases hv with hv
      split
      · nlinarith
      · exact hv
    | text t =>
      obtain ⟨htd, hfl⟩ := hv
      simp only [time_to_hours]
      cases htd' : P.toTimedelta t with
      | some q => exact div_nonneg (htd q htd') (by norm_num)
      | none =>
        cases hdt' : P.toDatetime t with
        | some triple =>
          obtain ⟨h, m, sec⟩ := triple
          positivity
        | none =>
          cases hfl' : P.toFloat t with
          | some q => exact hfl q hfl'
          | none => simp
  · simp [time_to_hours, h1, h2, h3]

/-- Witness for C1's amended theorem at concrete inputs: the numeric cell
`3` and the text cell `"not a time"` under the modelled conversions. -/
theorem c1_normalize_nonneg_amended_witness :
    0 ≤ time_to_hours modelConv (.num 3) ∧
    time_to_hours modelConv (.text "not a time") = 0 :=
  c1_normalize_nonneg_amended modelConv (.num 3) "not a time"
    (by norm_num [RawValue.NonnegFor]) rfl rfl rfl

/-- Claim C6: on text the normalizer first tries the duration parse, then
the date-time parse (hour + minute/60 + second/3600), then the bare-number
parse, and returns `0.0` when all three fail; in particular
`normalize("not a time") = 0`. -/
theorem c6_text_fallback_cascade (P : TextConv) (s : String) :
    (∀ q, P.toTimedelta s = some q → time_to_hours P (.text s) = q / 3600) ∧
    (P.toTimedelta s = none → ∀ h m sec, P.toDatetime s = some (h, m, sec) →
      time_to_hours P (.text s) = (h : ℚ) + (m : ℚ) / 60 + (sec : ℚ) / 3600) ∧
    (P.toTimedelta s = none → P.toDatetime s = none → ∀ v,
      P.toFloat s = some v → time_to_hours P (.text s) = v) ∧
    (P.toTimedelta s = none → P.toDatetime s = none → P.toFloat s = none →
      time_to_hours P (.text s) = 0) ∧
    time_to_hours modelConv (.text "not a time") = 0 := by
  refine ⟨?_, ?_, ?_, ?_, rfl⟩
  · intro q hq; simp [time_to_hours, hq]
  · intro h1 h m sec h2; simp [time_to_hours, h1, h2]
  · intro h1 h2 v h3; simp [time_to_hours, h1, h2, h3]
  · intro h1 h2 h3; simp [time_to_hours, h1, h2, h3]

/-- The claim's normalized position: `(hours - 20) / (max(max_hours, 20) - 20)`
clamped to `[0, 1]`, and `0` outright when the denominator is not positive. -/
def specPos (hours max_hours : ℚ) : ℚ :=
  let d := max max_hours 20 - 20
  if d ≤ 0 then 0 else max 0 (min 1 ((hours - 20) / d))

theorem clamp01_idem (p : ℚ) :
    max 0 (min 1 (max 0 (min 1 p))) = max 0 (min 1 p) := by
  have h0 : (0 : ℚ) ≤ max 0 (min 1 p) := le_max_left _ _
  have h1 : max 0 (min 1 p) ≤ 1 := max_le (by norm_num) (min_le_left _ _)
  rw [min_eq_right h1, max_eq_right h0]

theorem gradientAt_clamp (p : ℚ) :
    gradientAt (max 0 (min 1 p)) = gradientAt p := by
  simp only [gradientAt, clamp01_idem]

/-- Claim C8: `get_bar_color` is the fixed red below 20 hours; at or above
20 it is the orange→yellow→green gradient at the clamped position
`(hours - 20) / (max(max_hours, 20) - 20)` (position 0 when the
denominator is not positive); `19.99` hours is red for any batch maximum,
and `(20, 20)` sits exactly on the orange anchor. -/
theorem c8_bar_color (hours m : ℚ) :
    (hours < 20 → get_bar_color hours m = .hex "#FF0000") ∧
    (20 ≤ hours → get_bar_color hours m =
      .rgb (gradientAt (specPos hours m)).1 (gradientAt (specPos hours m)).2.1
        (gradientAt (specPos hours m)).2.2) ∧
    get_bar_color (1999 / 100) m = .hex "#FF0000" ∧
    get_bar_color 20 20 = .rgb 1 (165 / 255) 0 := by
  refine ⟨?_, ?_, ?_, ?_⟩
  · intro h
    simp [get_bar_color, h]
  · intro h
    have hnl : ¬ hours < 20 := not_lt.mpr h
    simp only [get_bar_color, specPos, hnl, if_false]
    by_cases hd : max m 20 - 20 ≤ 0
    · have hd' : ¬ max m 20 - 20 > 0 := not_lt.mpr hd
      simp [hd, hd']
    · have hd' : max m 20 - 20 > 0 := lt_of_not_ge hd
      simp only [hd, if_false, hd', if_true, gradientAt_clamp]
  · have : (1999 : ℚ) / 100 < 20 := by norm_num
    simp [get_bar_color, this]
  · have h1 : ¬ (20 : ℚ) < 20 := lt_irrefl 20
    have h2 : max (20 : ℚ) 20 - 20 = 0 := by simp
    simp [get_bar_color, h1, h2, gradientAt]

/-- Claim C9: a dataset missing any required column is rejected wholesale:
`ingest` returns an error listing exactly the required columns the dataset
lacks, and the batch result over the remaining datasets is unchanged —
none of the rejected dataset's rows are ingested and processing
continues. -/
theorem c9_missing_columns_skip (P : TextConv) (d : Dataset)
    (pre post : List Dataset) (h : missing_cols d ≠ []) :
    ingest P d = .error (missing_cols d) ∧
    (∀ c, c ∈ missing_cols d ↔ c ∈ requiredCols ∧ ¬ c ∈ d.cols) ∧
    (ingestAll P (pre ++ d :: post)).1 = (ingestAll P (pre ++ post)).1 := by
  refine ⟨by simp [ingest, h], ?_, ?_⟩
  · intro c
    simp [missing_cols, List.mem_filter]
  · induction pre with
    | nil =>
      simp only [List.nil_append, ingestAll, ingest, if_pos h]
    | cons a pre ih =>
      simp only [List.cons_append, ingestAll]
      cases hing : ingest P a <;> simp [ih]

/-- Witness for C9: a dataset exposing only the technician column is
rejected with the other two required columns named, and ingesting it
between two empty batches adds no rows. -/
theorem c9_missing_columns_skip_witness :
    ingest modelConv ⟨"bad.xlsx", [TECHNICIAN_COL], []⟩ =
      .error (missing_cols ⟨"bad.xlsx", [TECHNICIAN_COL], []⟩) ∧
    (∀ c, c ∈ missing_cols ⟨"bad.xlsx", [TECHNICIAN_COL], []⟩ ↔
      c ∈ requiredCols ∧ ¬ c ∈ (⟨"bad.xlsx", [TECHNICIAN_COL], []⟩ : Dataset).cols) ∧
    (ingestAll modelConv ([] ++ ⟨"bad.xlsx", [TECHNICIAN_COL], []⟩ :: [])).1 =
      (ingestAll modelConv ([] ++ [])).1 :=
  c9_missing_columns_skip modelConv ⟨"bad.xlsx", [TECHNICIAN_COL], []⟩ [] []
    (by decide)

/-- The rows of one canonical technician, in ingestion order. -/
def techRows (rows : List Row) (t : String) : List Row :=
  rows.filter fun r => r.technician == t

/-- The specification's count: distinct non-null work-order ids over all of
a technician's rows. -/
def distinctWOs (rows : List Row) (t : String) : ℕ :=
  ((techRows rows t).filterMap Row.workOrder).dedup.length

/-- The specification's sum: hours over all of a technician's rows, with
no deduplication. -/
def totalHours (rows : List Row) (t : String) : ℚ :=
  ((techRows rows t).map Row.hours).sum

/-- Lookup of a technician's raw group state. -/
def lookupRaw (g : List (String × List String × ℚ)) (t : String) :
    Option (List String × ℚ) :=
  (g.find? fun p => p.1 == t).map fun p => p.2

/-- Folding one row into a group payload. -/
def payloadStep (p : List String × ℚ) (r : Row) : List String × ℚ :=
  (woInsert p.1 r.workOrder, p.2 + r.hours)

/-- Folding a row list's work orders into a seen-set. -/
def woFold (ws : List String) (rs : List Row) : List String :=
  rs.foldl (fun ws r => woInsert ws r.workOrder) ws

theorem lookupRaw_cons (a : String) (ws : List String) (q : ℚ)
    (g : List (String × List String × ℚ)) (t : String) :
    lookupRaw ((a, ws, q) :: g) t = if a = t then some (ws, q) else lookupRaw g t := by
  by_cases h : a = t <;> simp [lookupRaw, List.find?_cons, h]

theorem lookupRaw_aggStep (acc : List (String × List String × ℚ)) (r : Row)
    (t : String) :
    lookupRaw (aggStep acc r) t =
      if r.technician = t then
        some (payloadStep ((lookupRaw acc t).getD ([], 0)) r)
      else lookupRaw acc t := by
  induction acc with
  | nil =>
    by_cases h : r.technician = t
    · simp [aggStep, lookupRaw_cons, lookupRaw, payloadStep, h]
    · simp [aggStep, lookupRaw_cons, lookupRaw, h]
  | cons p rest ih =>
    obtain ⟨a, ws, hq⟩ := p
    by_cases h1 : a = r.technician
    · have h1r : r.technician = a := h1.symm
      by_cases h2 : r.technician = t
      · have ha : a = t := h1.trans h2
        simp [aggStep, if_pos h1, lookupRaw_cons, ha, h2, payloadStep]
      · have ha : ¬ a = t := fun hc => h2 (h1r.symm ▸ hc)
        simp [aggStep, if_pos h1, lookupRaw_cons, ha, h2]
    · simp only [aggStep, if_neg h1]
      by_cases h2 : a = t
      · have hrt : ¬ r.technician = t := fun hc => h1 (h2.trans hc.symm)
        simp [lookupRaw_cons, h2, hrt]
      · simp [lookupRaw_cons, h2, ih]

theorem lookupRaw_foldl (rows : List Row) :
    ∀ (acc : List (String × List String × ℚ)) (t : String),
    lookupRaw (rows.foldl aggStep acc) t =
      match lookupRaw acc t with
      | some p => some ((techRows rows t).foldl payloadStep p)
      | none =>
        if (techRows rows t).isEmpty then none
        else some ((techRows rows t).foldl payloadStep ([], 0)) := by
  induction rows with
  | nil =>
    intro acc t
    cases h : lookupRaw acc t <;> simp [techRows, h]
  | cons r rest ih =>
    intro acc t
    have step : rest.foldl aggStep (aggStep acc r) = (r :: rest).foldl aggStep acc := rfl
    rw [← step, ih (aggStep acc r) t, lookupRaw_aggStep]
    by_cases hr : r.technician = t
    · have hfilter : techRows (r :: rest) t = r :: techRows rest t := by
        simp [techRows, List.filter_cons, hr]
      rw [if_pos hr, hfilter]
      cases h : lookupRaw acc t with
      | some p => simp [List.foldl_cons]
      | none =>
        simp only [Option.getD_none, List.foldl_cons, List.isEmpty_cons,
          Bool.false_eq_true, if_false]
    · have hfilter : techRows (r :: rest) t = techRows rest t := by
        simp [techRows, List.filter_cons, hr]
      rw [if_neg hr, hfilter]

theorem payloadStep_snd (rs : List Row) :
    ∀ p : List String × ℚ,
    (rs.foldl payloadStep p).2 = p.2 + (rs.map Row.hours).sum := by
  induction rs with
  | nil => intro p; simp
  | cons r rest ih =>
    intro p
    simp only [List.foldl_cons, ih, payloadStep, List.map_cons, List.sum_cons]
    ring

theorem payloadStep_fst (rs : List Row) :
    ∀ p : List String × ℚ, (rs.foldl payloadStep p).1 = woFold p.1 rs := by
  induction rs with
  | nil => intro p; simp [woFold]
  | cons r rest ih =>
    intro p
    simp only [List.foldl_cons, ih, payloadStep, woFold]

theorem mem_woInsert (x : String) (ws : List String) (wo : Option String) :
    x ∈ woInsert ws wo ↔ x ∈ ws ∨ wo = some x := by
  cases wo with
  | none => simp [woInsert]
  | some w =>
    by_cases h : w ∈ ws
    · simp only [woInsert, if_pos h]
      constructor
      · exact fun hx => Or.inl hx
      · rintro (hx | hx)
        · exact hx
        · cases hx; exact h
    · simp only [woInsert, if_neg h, List.mem_append, List.mem_singleton]
      constructor
      · rintro (hx | hx)
        · exact Or.inl hx
        · exact Or.inr (by rw [hx])
      · rintro (hx | hx)
        · exact Or.inl hx
        · cases hx; exact Or.inr rfl

theorem nodup_woInsert (ws : List String) (wo : Option String)
    (h : ws.Nodup) : (woInsert ws wo).Nodup := by
  cases wo with
  | none => exact h
  | some w =>
    by_cases hw : w ∈ ws
    · simpa [woInsert, hw] using h
    · simp [woInsert, hw, List.nodup_append, h]

theorem mem_woFold (rs : List Row) :
    ∀ (ws : List String) (x : String),
    x ∈ woFold ws rs ↔ x ∈ ws ∨ x ∈ rs.filterMap Row.workOrder := by
  induction rs with
  | nil => intro ws x; simp [woFold]
  | cons r rest ih =>
    intro ws x
    have : woFold ws (r :: rest) = woFold (woInsert ws r.workOrder) rest := rfl
    rw [this, ih, mem_woInsert, List.filterMap_cons]
    cases hwo : r.workOrder with
    | none => simp [hwo]
    | some w =>
      simp only [List.mem_cons]
      constructor
      · rintro ((hx | hx) | hx)
        · exact Or.inl hx
        · exact Or.inr (Or.inl (Option.some_injective _ hx).symm)
        · exact Or.inr (Or.inr hx)
      · rintro (hx | hx | hx)
        · exact Or.inl (Or.inl hx)
        · exact Or.inl (Or.inr (by rw [hx]))
        · exact Or.inr hx

theorem nodup_woFold (rs : List Row) :
    ∀ ws : List String, ws.Nodup → (woFold ws rs).Nodup := by
  induction rs with
  | nil => intro ws h; exact h
  | cons r rest ih =>
    intro ws h
    exact ih (woInsert ws r.workOrder) (nodup_woInsert ws r.workOrder h)

theorem woFold_nil_length (rs : List Row) :
    (woFold [] rs).length = (rs.filterMap Row.workOrder).dedup.length := by
  have h1 : (woFold [] rs).Nodup := nodup_woFold rs [] List.nodup_nil
  have h2 : (woFold [] rs).toFinset = (rs.filterMap Row.workOrder).toFinset := by
    ext x
    simp [List.mem_toFinset, mem_woFold]
  calc (woFold [] rs).length = (woFold [] rs).toFinset.card :=
        (List.toFinset_card_of_nodup h1).symm
    _ = (rs.filterMap Row.workOrder).toFinset.card := by rw [h2]
    _ = (rs.filterMap Row.workOrder).dedup.length := List.card_toFinset _

theorem lookupAgg_groupRows_eq (g : List (String × List String × ℚ))
    (t : String) :
    lookupAgg (g.map fun p => (p.1, p.2.1.length, p.2.2)) t =
      (lookupRaw g t).map fun p => (p.1.length, p.2) := by
  induction g with
  | nil => simp [lookupAgg, lookupRaw]
  | cons p rest ih =>
    obtain ⟨a, ws, hq⟩ := p
    by_cases h : a = t
    · simp [lookupAgg, lookupRaw, List.find?_cons, h]
    · simp only [List.map_cons]
      simpa [lookupAgg, lookupRaw, List.find?_cons, h] using ih

/-- Claim C3: the group-by over all ingested rows, looked up at any
canonical technician, yields exactly the specification's pair — the count
of distinct work-order identifiers over that technician's rows (duplicates
collapse) and the plain sum of hours over those rows (no deduplication) —
and yields nothing for a technician with no rows. -/
theorem c3_grouping_distinct_and_sum (rows : List Row) (t : String) :
    lookupAgg (groupRows rows) t =
      if (techRows rows t).isEmpty then none
      else some (distinctWOs rows t, totalHours rows t) := by
  rw [groupRows, groupRaw, lookupAgg_groupRows_eq, lookupRaw_foldl rows [] t]
  have hnil : lookupRaw [] t = none := rfl
  rw [hnil]
  by_cases h : (techRows rows t).isEmpty
  · simp [h]
  · rw [if_neg h, if_neg h]
    show Option.map (fun p => (p.1.length, p.2))
        (some ((techRows rows t).foldl payloadStep ([], 0))) =
      some (distinctWOs rows t, totalHours rows t)
    rw [Option.map_some']
    have e1 := payloadStep_fst (techRows rows t) ([], 0)
    have e2 := payloadStep_snd (techRows rows t) ([], 0)
    have e3 := woFold_nil_length (techRows rows t)
    simp only [Option.some_inj, Prod.mk.injEq]
    refine ⟨?_, ?_⟩
    · rw [e1]
      simpa [distinctWOs] using e3
    · rw [e2]
      simp [totalHours]

/-- Descending order on summary rows by total hours. -/
def HoursGE (a b : TechnicianSummary) : Prop := b.total_hours ≤ a.total_hours

theorem insertDesc_perm (e : TechnicianSummary) (l : List TechnicianSummary) :
    List.Perm (insertDesc e l) (e :: l) := by
  induction l with
  | nil => exact List.Perm.refl _
  | cons x xs ih =>
    simp only [insertDesc]
    split
    · exact List.Perm.refl _
    · exact (ih.cons x).trans (List.Perm.swap e x xs)

theorem sortByHoursDesc_perm (l : List TechnicianSummary) :
    List.Perm (sortByHoursDesc l) l := by
  induction l with
  | nil => exact List.Perm.refl _
  | cons x xs ih =>
    exact (insertDesc_perm x (sortByHoursDesc xs)).trans (ih.cons x)

theorem insertDesc_sorted (e : TechnicianSummary) (l : List TechnicianSummary)
    (h : l.Pairwise HoursGE) : (insertDesc e l).Pairwise HoursGE := by
  induction l with
  | nil => simp [insertDesc]
  | cons x xs ih =>
    rw [List.pairwise_cons] at h
    simp only [insertDesc]
    by_cases hx : x.total_hours ≤ e.total_hours
    · rw [if_pos hx]
      refine List.Pairwise.cons ?_ (List.Pairwise.cons h.1 h.2)
      intro y hy
      rcases List.mem_cons.mp hy with hy | hy
      · rw [hy]; exact hx
      · exact le_trans (h.1 y hy) hx
    · rw [if_neg hx]
      refine List.Pairwise.cons ?_ (ih h.2)
      intro y hy
      have hy' : y ∈ e :: xs := (insertDesc_perm e xs).mem_iff.mp hy
      rcases List.mem_cons.mp hy' with hy' | hy'
      · rw [hy']; exact le_of_lt (lt_of_not_ge hx)
      · exact h.1 y hy'

theorem sortByHoursDesc_sorted (l : List TechnicianSummary) :
    (sortByHoursDesc l).Pairwise HoursGE := by
  induction l with
  | nil => simp [sortByHoursDesc]
  | cons x xs ih => exact insertDesc_sorted x (sortByHoursDesc xs) ih

theorem filter_insertDesc (e : TechnicianSummary) (l : List TechnicianSummary)
    (c : ℚ) :
    (insertDesc e l).filter (fun x => x.total_hours == c) =
      (e :: l).filter (fun x => x.total_hours == c) := by
  induction l with
  | nil => rfl
  | cons x xs ih =>
    simp only [insertDesc]
    by_cases hx : x.total_hours ≤ e.total_hours
    · rw [if_pos hx]
    · rw [if_neg hx]
      by_cases hec : e.total_hours = c
      · have hxc : ¬ x.total_hours = c := fun hc => hx (by rw [hc, hec])
        simp [List.filter_cons, hxc, hec, ih]
      · simp [List.filter_cons, hec, ih]

theorem filter_sortByHoursDesc (l : List TechnicianSummary) (c : ℚ) :
    (sortByHoursDesc l).filter (fun x => x.total_hours == c) =
      l.filter (fun x => x.total_hours == c) := by
  induction l with
  | nil => rfl
  | cons x xs ih =>
    have : sortByHoursDesc (x :: xs) = insertDesc x (sortByHoursDesc xs) := rfl
    rw [this, filter_insertDesc]
    simp [List.filter_cons, ih]

/-- The merge's per-technician row constructor (lines 123–124). -/
def joinRow (grouped : List (String × ℕ × ℚ)) (t : String) : TechnicianSummary :=
  match lookupAgg grouped t with
  | some (w, h) => { technician := t, work_orders_completed := w, total_hours := h }
  | none => { technician := t, work_orders_completed := 0, total_hours := 0 }

theorem baseSummary_eq_map (roster : List String)
    (grouped : List (String × ℕ × ℚ)) :
    baseSummary roster grouped = roster.map (joinRow grouped) := by
  unfold baseSummary joinRow
  rfl

theorem joinRow_technician (grouped : List (String × ℕ × ℚ)) (t : String) :
    (joinRow grouped t).technician = t := by
  unfold joinRow
  cases h : lookupAgg grouped t with
  | some p => obtain ⟨w, q⟩ := p; rfl
  | none => rfl

theorem round2_zero : round2 0 = 0 := by
  norm_num [round2, roundHalfEven]

theorem mergeSummary_false (roster : List String)
    (grouped : List (String × ℕ × ℚ)) :
    mergeSummary roster grouped false =
      roster.map fun t =>
        { joinRow grouped t with total_hours := round2 (joinRow grouped t).total_hours } := by
  unfold mergeSummary
  rw [baseSummary_eq_map, List.map_map]
  rfl

theorem mergeSummary_true (roster : List String)
    (grouped : List (String × ℕ × ℚ)) :
    mergeSummary roster grouped true =
      sortByHoursDesc (mergeSummary roster grouped false) := by
  unfold mergeSummary
  rfl

theorem mergeFalse_technicians (roster : List String)
    (grouped : List (String × ℕ × ℚ)) :
    (mergeSummary roster grouped false).map TechnicianSummary.technician =
      roster := by
  rw [mergeSummary_false, List.map_map]
  have hcomp : (TechnicianSummary.technician ∘ fun t =>
      { joinRow grouped t with
        total_hours := round2 (joinRow grouped t).total_hours }) = id := by
    funext t
    simp only [Function.comp_apply, id_eq]
    simpa using joinRow_technician grouped t
  rw [hcomp, List.map_id]

theorem mem_mergeSummary_iff (roster : List String)
    (grouped : List (String × ℕ × ℚ)) (b : Bool) (e : TechnicianSummary) :
    e ∈ mergeSummary roster grouped b ↔
      e ∈ mergeSummary roster grouped false := by
  cases b with
  | false => exact Iff.rfl
  | true => exact (sortByHoursDesc_perm (mergeSummary roster grouped false)).mem_iff

/-- Claim C2: the merge is a left join onto the roster — the output has
exactly one entry per roster technician (its length is the roster's and
its technician column is a permutation of the roster), every roster
technician absent from the aggregated data appears with `(0, 0.0)`, and
no technician outside the roster ever appears. -/
theorem c2_roster_left_join (roster : List String)
    (grouped : List (String × ℕ × ℚ)) (b : Bool) :
    (mergeSummary roster grouped b).length = roster.length ∧
    (∀ t ∈ roster, lookupAgg grouped t = none →
      ({ technician := t, work_orders_completed := 0, total_hours := 0 } :
        TechnicianSummary) ∈ mergeSummary roster grouped b) ∧
    (∀ e ∈ mergeSummary roster grouped b, e.technician ∈ roster) ∧
    List.Perm ((mergeSummary roster grouped b).map TechnicianSummary.technician)
      roster := by
  have hlenf : (mergeSummary roster grouped false).length = roster.length := by
    rw [mergeSummary_false, List.length_map]
  refine ⟨?_, ?_, ?_, ?_⟩
  · cases b with
    | false => exact hlenf
    | true =>
      rw [mergeSummary_true,
        (sortByHoursDesc_perm (mergeSummary roster grouped false)).length_eq]
      exact hlenf
  · intro t ht hnone
    rw [mem_mergeSummary_iff, mergeSummary_false]
    refine List.mem_map.mpr ⟨t, ht, ?_⟩
    simp [joinRow, hnone, round2_zero]
  · intro e he
    rw [mem_mergeSummary_iff, mergeSummary_false] at he
    obtain ⟨t, ht, rfl⟩ := List.mem_map.mp he
    simpa [joinRow_technician] using ht
  · cases b with
    | false => rw [mergeFalse_technicians]
    | true =>
      rw [mergeSummary_true]
      have hp := (sortByHoursDesc_perm
        (mergeSummary roster grouped false)).map TechnicianSummary.technician
      rw [mergeFalse_technicians] at hp
      exact hp

/-- Claim C7: with the sort flag set the merged list is ordered by
`total_hours` descending, and it is a stable rearrangement of the
unsorted output — among entries with any given `total_hours` value the
roster order is preserved; with the flag unset the output lists the
technicians exactly in roster order, and the roster itself is sorted
alphabetically case-insensitively. -/
theorem c7_sort_descending (roster : List String)
    (grouped : List (String × ℕ × ℚ)) :
    (mergeSummary roster grouped true).Pairwise HoursGE ∧
    (∀ c : ℚ, (mergeSummary roster grouped true).filter
        (fun e => e.total_hours == c) =
      (mergeSummary roster grouped false).filter (fun e => e.total_hours == c)) ∧
    (mergeSummary roster grouped false).map TechnicianSummary.technician =
      roster ∧
    MANUAL_TECHS.Pairwise (fun a b => lexLe (upperKey a) (upperKey b) = true) := by
  refine ⟨?_, ?_, ?_, ?_⟩
  · rw [mergeSummary_true]
    exact sortByHoursDesc_sorted _
  · intro c
    rw [mergeSummary_true]
    exact filter_sortByHoursDesc _ c
  · exact mergeFalse_technicians roster grouped
  · decide

/-- The aggregated hours sum a merge entry sees: the looked-up sum, or the
`0.0` fill. -/
def aggHoursOf (grouped : List (String × ℕ × ℚ)) (t : String) : ℚ :=
  ((lookupAgg grouped t).getD (0, 0)).2

theorem joinRow_hours (grouped : List (String × ℕ × ℚ)) (t : String) :
    (joinRow grouped t).total_hours = aggHoursOf grouped t := by
  unfold joinRow aggHoursOf
  cases h : lookupAgg grouped t with
  | some p => obtain ⟨w, q⟩ := p; rfl
  | none => rfl

theorem round2_nonneg (q : ℚ) (h : 0 ≤ q) : 0 ≤ round2 q := by
  have hf : (0 : ℤ) ≤ ⌊q * 100⌋ :=
    Int.floor_nonneg.mpr (mul_nonneg h (by norm_num))
  have hz : (0 : ℤ) ≤ roundHalfEven (q * 100) := by
    unfold roundHalfEven
    have he : ¬ Even (1 : ℤ) := by decide
    split_ifs <;> omega
  unfold round2
  have hc : (0 : ℚ) ≤ (roundHalfEven (q * 100) : ℚ) := by exact_mod_cast hz
  positivity

theorem aggHoursOf_nonneg (grouped : List (String × ℕ × ℚ)) (t : String)
    (h : ∀ p ∈ grouped, 0 ≤ p.2.2) : 0 ≤ aggHoursOf grouped t := by
  unfold aggHoursOf lookupAgg
  cases hf : grouped.find? (fun p => p.1 == t) with
  | none => simp
  | some p =>
    have hp : p ∈ grouped := List.mem_of_find?_eq_some hf
    simpa using h p hp

/-- The raw row of C5's counterexample: a duration cell holding `-5`. -/
def negRow : RawRow :=
  { technician := some " srijan ", workOrder := some "WO1",
    duration := .num (-5) }

/-- Counterexample to claim C5: a single uploaded row whose duration cell
holds the number `-5` flows through cleaning, grouping and the merge into
a summary entry whose `total_hours` is `-5`, which is negative. -/
theorem c5_counterexample_negative_total :
    ({ technician := "SRIJAN", work_orders_completed := 1, total_hours := -5 } :
      TechnicianSummary) ∈
      mergeSummary MANUAL_TECHS (groupRows (cleanRows modelConv [negRow]))
        false ∧
    (-5 : ℚ) < 0 := by
  constructor
  · have h1 : canonTech " srijan " = "SRIJAN" := by decide
    have h2 : time_to_hours modelConv (.num (-5)) = -5 := by
      norm_num [time_to_hours]
    have hclean : cleanRows modelConv [negRow] =
        [{ technician := "SRIJAN", workOrder := some "WO1", hours := -5 }] := by
      simp [cleanRows, negRow, RawValue.isNull, h1, h2]
    have hgroup : groupRows (cleanRows modelConv [negRow]) =
        [("SRIJAN", 1, -5)] := by
      rw [hclean]
      rfl
    rw [hgroup, mergeSummary_false]
    have hr : round2 (-5) = -5 := by
      norm_num [round2, roundHalfEven]
    refine List.mem_map.mpr ⟨"SRIJAN", by decide, ?_⟩
    have hj : joinRow [("SRIJAN", 1, -5)] "SRIJAN" =
        { technician := "SRIJAN", work_orders_completed := 1,
          total_hours := -5 } := rfl
    rw [hj]
    simp [hr]
  · norm_num

/-- Claim C5 as amended: every merged entry's `total_hours` equals,
unconditionally, the aggregated hours sum (or the `0.0` fill) rounded to
two decimals; it is non-negative whenever every aggregated sum is
non-negative — the code itself does not force non-negativity, since the
normalizer can emit negative hours. -/
theorem c5_hours_rounded_amended (roster : List String)
    (grouped : List (String × ℕ × ℚ)) (b : Bool) :
    (∀ e ∈ mergeSummary roster grouped b,
      e.total_hours = round2 (aggHoursOf grouped e.technician)) ∧
    ((∀ p ∈ grouped, 0 ≤ p.2.2) →
      ∀ e ∈ mergeSummary roster grouped b, 0 ≤ e.total_hours) := by
  have key : ∀ e ∈ mergeSummary roster grouped b,
      e.total_hours = round2 (aggHoursOf grouped e.technician) := by
    intro e he
    rw [mem_mergeSummary_iff, mergeSummary_false] at he
    obtain ⟨t, ht, rfl⟩ := List.mem_map.mp he
    have htech : (joinRow grouped t).technician = t :=
      joinRow_technician grouped t
    simp [htech, joinRow_hours]
  refine ⟨key, ?_⟩
  intro h e he
  rw [key e he]
  exact round2_nonneg _ (aggHoursOf_nonneg grouped e.technician h)

/-- Claim C10: a raw row with a null work-order id but non-null technician
and duration survives cleaning; its normalized hours add to the
technician's total, while the distinct work-order count is unchanged
(null identifiers are ignored by the unique count). -/
theorem c10_null_workorder_retained (P : TextConv) (rows : List RawRow)
    (r : RawRow) (t : String) (h1 : r.technician = some t)
    (h2 : r.duration.isNull = false) (h3 : r.workOrder = none) :
    cleanRows P (r :: rows) =
      { technician := canonTech t, workOrder := none,
        hours := time_to_hours P r.duration } :: cleanRows P rows ∧
    totalHours (cleanRows P (r :: rows)) (canonTech t) =
      time_to_hours P r.duration +
        totalHours (cleanRows P rows) (canonTech t) ∧
    distinctWOs (cleanRows P (r :: rows)) (canonTech t) =
      distinctWOs (cleanRows P rows) (canonTech t) := by
  have hclean : cleanRows P (r :: rows) =
      { technician := canonTech t, workOrder := none,
        hours := time_to_hours P r.duration } :: cleanRows P rows := by
    simp [cleanRows, List.filter_cons, h1, h2, h3]
  refine ⟨hclean, ?_, ?_⟩
  · rw [hclean]
    simp [totalHours, techRows, List.filter_cons]
  · rw [hclean]
    simp [distinctWOs, techRows, List.filter_cons, List.filterMap_cons]

/-- The raw row of C10's witness: technician `"bob"`, null work order,
numeric duration `2`. -/
def bobRow : RawRow :=
  { technician := some "bob", workOrder := none, duration := .num 2 }

/-- Witness for C10: one raw row for technician `"bob"` with a null work
order and the numeric duration `2`. -/
theorem c10_null_workorder_retained_witness :
    cleanRows modelConv (bobRow :: []) =
      { technician := canonTech "bob", workOrder := none,
        hours := time_to_hours modelConv bobRow.duration } ::
        cleanRows modelConv [] ∧
    totalHours (cleanRows modelConv (bobRow :: [])) (canonTech "bob") =
      time_to_hours modelConv bobRow.duration +
        totalHours (cleanRows modelConv []) (canonTech "bob") ∧
    distinctWOs (cleanRows modelConv (bobRow :: [])) (canonTech "bob") =
      distinctWOs (cleanRows modelConv []) (canonTech "bob") :=
  c10_null_workorder_retained modelConv [] bobRow "bob" rfl rfl rfl
